import Mathlib

/-!
Verification development for the ModernEU-RAG-CHATBOT core:
the document chunker (`app/utils/document_processor.py`) and the
vector index (`app/utils/vector_store.py`), shallowly embedded over
`List Char` texts with Python slicing / `rfind` / `strip` semantics.
-/

namespace ModernEURag

/-- The whitespace set removed by Python `str.strip()` (ASCII part). -/
def isPySpace (c : Char) : Bool :=
  c = ' ' || c = '\t' || c = '\n' || c = '\r' || c = '\x0b' || c = '\x0c'

/-- Python `str.strip()`: drop whitespace from both ends. -/
def pyStrip (s : List Char) : List Char :=
  ((s.dropWhile isPySpace).reverse.dropWhile isPySpace).reverse

/-- Normalization of one slice index, as in Python `slice.indices`:
a negative index counts from the end (clamped to 0), a non-negative
index is clamped to the length. -/
def pyIdx (n : Nat) (i : Int) : Nat :=
  if i < 0 then ((n : Int) + i).toNat else min i.toNat n

/-- Python slice `s[a:b]` for integer indices `a`, `b`. -/
def pySlice (s : List Char) (a b : Int) : List Char :=
  (s.take (pyIdx s.length b)).drop (pyIdx s.length a)

/-- Python `s.rfind(c)`: index of the last occurrence of `c`, `-1` if absent. -/
def pyRfind (c : Char) : List Char → Int
  | [] => -1
  | x :: xs =>
    let r := pyRfind c xs
    if 0 ≤ r then r + 1 else if x = c then 0 else -1

/-- One iteration of the `DocumentProcessor.chunk_text` scan: from cursor
`start`, take the window `text[start : start + cs]`; if the window's right
edge is strictly before the end of the text, compute
`max(chunk.rfind('.'), chunk.rfind('\n'), chunk.rfind(' '))` and, when that
break point exceeds `chunk_size * 0.5`, truncate the window just after it
and move the window end accordingly; finally strip the chunk. Returns the
stripped chunk together with the updated `end` cursor. -/
def chunkStep (cs : Int) (text : List Char) (start : Int) : List Char × Int :=
  let e := start + cs
  let chunk := pySlice text start e
  if e < (text.length : Int) then
    let bp := max (max (pyRfind '.' chunk) (pyRfind '\n' chunk)) (pyRfind ' ' chunk)
    if 2 * bp > cs then (pyStrip (pySlice chunk 0 (bp + 1)), start + bp + 1)
    else (pyStrip chunk, e)
  else (pyStrip chunk, e)

/-- The `while start < text_length` loop of `chunk_text`, with explicit fuel;
`none` means the given fuel was exhausted before the cursor reached the end
of the text. Non-empty stripped chunks are accumulated (in reverse). -/
def chunkLoop (cs ov : Int) (text : List Char) :
    Nat → Int → List (List Char) → Option (List (List Char))
  | 0, start, acc =>
    if start < (text.length : Int) then none else some acc.reverse
  | fuel + 1, start, acc =>
    if start < (text.length : Int) then
      let p := chunkStep cs text start
      chunkLoop cs ov text fuel (p.2 - ov) (if p.1.isEmpty then acc else p.1 :: acc)
    else some acc.reverse

/-- `DocumentProcessor.chunk_text(text)` with `chunk_size = cs` and
`chunk_overlap = ov`. The fuel `text.length + 1` is enough for every
terminating configuration (the cursor starts at 0 and must strictly
increase while below the length for the scan to finish). -/
def chunk_text (cs ov : Int) (text : List Char) : Option (List (List Char)) :=
  chunkLoop cs ov text (text.length + 1) 0 []

/-- The scan of `chunk_text` runs forever: no amount of fuel makes the
loop reach the end of the text from the initial cursor 0. -/
def chunkDiverges (cs ov : Int) (text : List Char) : Prop :=
  ∀ fuel, chunkLoop cs ov text fuel 0 [] = none

/-- A chunk-boundary character of the chunker: period, newline or space. -/
def isBoundaryChar (c : Char) : Bool :=
  c = '.' || c = '\n' || c = ' '

/-- Modelled from the spec (§4.1 step 2, priority reading): the break point
obtained by searching for the rightmost period first, then — only if no
period occurs — the rightmost newline, then — only if neither occurs —
the rightmost space. -/
def prioBreak (w : List Char) : Int :=
  if 0 ≤ pyRfind '.' w then pyRfind '.' w
  else if 0 ≤ pyRfind '\n' w then pyRfind '\n' w
  else pyRfind ' ' w

/-- Modelled from the spec (§4.1 step 2, priority reading): the window
truncated just after the priority break point when that point lies beyond
the window midpoint, the full window otherwise. -/
def prioTruncWindow (cs : Int) (w : List Char) : List Char :=
  if 2 * prioBreak w > cs then pySlice w 0 (prioBreak w + 1) else w

/-- The break point computed by `chunk_text` for the window starting at
`start`: `max(chunk.rfind('.'), chunk.rfind('\n'), chunk.rfind(' '))`. -/
def bpOf (cs : Int) (t : List Char) (start : Int) : Int :=
  max (max (pyRfind '.' (pySlice t start (start + cs)))
    (pyRfind '\n' (pySlice t start (start + cs))))
    (pyRfind ' ' (pySlice t start (start + cs)))

/-- Metadata attached by `DocumentProcessor.process_directory` to each chunk. -/
structure DocMeta where
  source : List Char
  chunk_index : Nat
  total_chunks : Nat
  file_path : List Char
deriving DecidableEq, Repr

/-- A document as passed to `VectorStore.add_documents`:
a dict with `content` and `metadata`. -/
structure InDoc where
  content : List Char
  metadata : DocMeta
deriving DecidableEq, Repr

/-- One entry of the underlying collection: id, embedding vector,
stored content and metadata. -/
structure VSEntry where
  eid : List Char
  embedding : List Int
  content : List Char
  metadata : DocMeta
deriving DecidableEq, Repr

/-- The per-document staging loop of `VectorStore.add_documents`: walk the
batch with running index `i`, compute each embedding (the embedding
capability may fail, modelled by `Option`), and build the rows that will be
handed to `collection.add` in one call. The first embedding failure aborts
the whole staging (`none`); ids are `f"doc_{collection.count() + i}"` where
the collection count is unchanged during the loop. -/
def buildRows (embed : List Char → Option (List Int)) (base : Nat) :
    Nat → List InDoc → Option (List VSEntry)
  | _, [] => some []
  | i, d :: ds =>
    match embed d.content with
    | none => none
    | some emb =>
      match buildRows embed base (i + 1) ds with
      | none => none
      | some rows =>
        some ({ eid := "doc_".data ++ Nat.toDigits 10 (base + i),
                embedding := emb, content := d.content,
                metadata := d.metadata } :: rows)

/-- `VectorStore.add_documents(documents)`: no-op on an empty batch;
otherwise stage every row (computing all embeddings) and only then append
the whole batch to the collection. An embedding failure raises
(`Except.error`) before `collection.add` is ever reached. -/
def add_documents (embed : List Char → Option (List Int)) (col : List VSEntry)
    (docs : List InDoc) : Except Unit (List VSEntry) :=
  if docs.isEmpty then Except.ok col
  else
    match buildRows embed col.length 0 docs with
    | none => Except.error ()
    | some rows => Except.ok (col ++ rows)

/-- The collection as observed after an `add_documents` call: the new
collection on success; on a raised embedding error the collection object
was never touched, so it is the old one. -/
def colAfterAdd (embed : List Char → Option (List Int)) (col : List VSEntry)
    (docs : List InDoc) : List VSEntry :=
  match add_documents embed col docs with
  | Except.ok c => c
  | Except.error _ => col

/-- `VectorStore.count()`: the collection's entry count. -/
def countVS (col : List VSEntry) : Nat := col.length

/-- `VectorStore.clear()`: delete and re-create the collection, leaving it
empty. -/
def clearVS : List VSEntry := []

/-- Squared Euclidean distance between two embedding vectors, the distance
order used by the underlying similarity-search store. -/
def sqDist (u v : List Int) : Int :=
  ((u.zip v).map (fun p => (p.1 - p.2) * (p.1 - p.2))).sum

/-- `VectorStore.search(query, top_k)`: return `[]` immediately when the
collection is empty; otherwise embed the query (a failure raises) and ask
the store for the `min(top_k, count)` nearest entries' contents,
best match first (stable insertion sort by distance). -/
def searchVS (embed : List Char → Option (List Int)) (col : List VSEntry)
    (query : List Char) (top_k : Nat) : Except Unit (List (List Char)) :=
  if col.length = 0 then Except.ok []
  else
    match embed query with
    | none => Except.error ()
    | some qe =>
      let ranked := (col.map (fun en => (sqDist qe en.embedding, en.content))).insertionSort
        (fun a b => a.1 ≤ b.1)
      Except.ok ((ranked.take (min top_k col.length)).map Prod.snd)

/-- A discovered source file as fed to `DocumentProcessor.process_directory`:
its basename, its full path and its loaded content. -/
structure SrcFile where
  name : List Char
  path : List Char
  content : List Char
deriving DecidableEq, Repr

/-- The per-file body of `process_directory`: skip hidden files
(`file.startswith('.')`), skip files whose content strips to empty,
otherwise chunk the content and attach `{source, chunk_index, total_chunks,
file_path}` metadata to each chunk via `enumerate`. `none` only when the
chunk scan itself never finishes. -/
def processFile (cs ov : Int) (f : SrcFile) : Option (List InDoc) :=
  if f.name.head? = some '.' then some []
  else if (pyStrip f.content).isEmpty then some []
  else
    match chunk_text cs ov f.content with
    | none => none
    | some chunks =>
      some (chunks.enum.map (fun ic =>
        { content := ic.2,
          metadata := { source := f.name, chunk_index := ic.1,
                        total_chunks := chunks.length, file_path := f.path } }))

/-- `DocumentProcessor.process_directory`: process the discovered files in
order, concatenating their chunk documents. -/
def processDirectory (cs ov : Int) : List SrcFile → Option (List InDoc)
  | [] => some []
  | f :: fs =>
    match processFile cs ov f, processDirectory cs ov fs with
    | some ds, some rest => some (ds ++ rest)
    | _, _ => none

/-- A demo embedding capability that always succeeds. -/
def demoEmbed : List Char → Option (List Int) := fun _ => some [0, 1]

/-- A demo embedding capability that fails on the content `"bad"`. -/
def failEmbed : List Char → Option (List Int) :=
  fun s => if s = "bad".data then none else some [0, 1]

/-- Demo metadata record. -/
def demoMeta : DocMeta := ⟨"demo.txt".data, 0, 1, "docs/demo.txt".data⟩

/-- Demo collection entries. -/
def demoEntry : VSEntry := ⟨"doc_0".data, [0, 1], "alpha".data, demoMeta⟩

def demoEntry2 : VSEntry := ⟨"doc_1".data, [2, 3], "beta".data, demoMeta⟩

/-- Demo input documents. -/
def demoDocA : InDoc := ⟨"alpha".data, demoMeta⟩

def demoDocB : InDoc := ⟨"beta".data, demoMeta⟩

def okDoc : InDoc := ⟨"ok".data, demoMeta⟩

def badDoc : InDoc := ⟨"bad".data, demoMeta⟩

/-- Demo source files for directory processing. -/
def demoFileA : SrcFile := ⟨"a.txt".data, "docs/a.txt".data, "one two. three".data⟩

def demoFileB : SrcFile := ⟨"b.txt".data, "docs/b.txt".data, "four five".data⟩

def emptyFile : SrcFile := ⟨"empty.txt".data, "docs/empty.txt".data, "  \n ".data⟩

/-! ### Basic lemmas about the Python string primitives -/

lemma mem_dropWhile_of_mem {p : Char → Bool} {c : Char} {s : List Char}
    (hc : c ∈ s) (hp : p c = false) : c ∈ s.dropWhile p := by
  induction s with
  | nil => cases hc
  | cons x xs ih =>
    rw [List.dropWhile_cons]
    rcases List.mem_cons.mp hc with h | h
    · subst h
      rw [hp]
      exact List.mem_cons_self _ _
    · split
      · exact ih h
      · exact List.mem_cons_of_mem _ h

lemma mem_pyStrip {c : Char} {s : List Char} (hc : c ∈ s)
    (hws : isPySpace c = false) : c ∈ pyStrip s := by
  unfold pyStrip
  rw [List.mem_reverse]
  exact mem_dropWhile_of_mem (List.mem_reverse.mpr (mem_dropWhile_of_mem hc hws)) hws

lemma pyStrip_length_le (s : List Char) : (pyStrip s).length ≤ s.length := by
  unfold pyStrip
  calc ((s.dropWhile isPySpace).reverse.dropWhile isPySpace).reverse.length
      = ((s.dropWhile isPySpace).reverse.dropWhile isPySpace).length := by
        rw [List.length_reverse]
    _ ≤ (s.dropWhile isPySpace).reverse.length :=
        (List.dropWhile_suffix _).length_le
    _ = (s.dropWhile isPySpace).length := by rw [List.length_reverse]
    _ ≤ s.length := (List.dropWhile_suffix _).length_le

lemma pyIdx_le (n : Nat) (i : Int) : pyIdx n i ≤ n := by
  unfold pyIdx
  split <;> omega

lemma pySlice_length_le_window (t : List Char) (a cs : Int) (hcs : 0 ≤ cs) :
    ((pySlice t a (a + cs)).length : Int) ≤ cs := by
  unfold pySlice pyIdx
  simp only [List.length_drop, List.length_take]
  split <;> split <;> omega

lemma pySlice_length_le_self (t : List Char) (a b : Int) :
    (pySlice t a b).length ≤ t.length := by
  unfold pySlice
  simp only [List.length_drop, List.length_take]
  omega

lemma pySlice_all (t : List Char) (b : Int) (h : (t.length : Int) ≤ b) :
    pySlice t 0 b = t := by
  unfold pySlice pyIdx
  rw [if_neg (by omega), if_neg (by omega)]
  have h1 : min (0 : Int).toNat t.length = 0 := by omega
  have h2 : min b.toNat t.length = t.length := by omega
  rw [h1, h2, List.drop_zero, List.take_length]

lemma pySlice_neg_empty (t : List Char) (start cs : Int) (h1 : -cs < start)
    (h2 : start < 0) (h3 : cs ≤ (t.length : Int)) :
    pySlice t start (start + cs) = [] := by
  unfold pySlice pyIdx
  rw [if_pos (by omega), if_neg (by omega)]
  apply List.drop_eq_nil_of_le
  simp only [List.length_take]
  omega

lemma pySlice_get_nonneg (t : List Char) (a b : Int) (ha : 0 ≤ a) (q : Nat)
    (hq : q < (pySlice t a b).length) :
    ∃ hp : a.toNat + q < t.length,
      (pySlice t a b).get ⟨q, hq⟩ = t.get ⟨a.toNat + q, hp⟩ := by
  have hBle : pyIdx t.length b ≤ t.length := pyIdx_le _ _
  have hlen : (pySlice t a b).length =
      pyIdx t.length b - pyIdx t.length a := by
    unfold pySlice
    simp only [List.length_drop, List.length_take]
    omega
  have hab : pyIdx t.length a + q < pyIdx t.length b := by omega
  have hA : pyIdx t.length a = a.toNat := by
    have h1 : pyIdx t.length a < t.length := by omega
    unfold pyIdx at h1 ⊢
    rw [if_neg (by omega)] at h1 ⊢
    omega
  have hp : a.toNat + q < t.length := by omega
  refine ⟨hp, ?_⟩
  show ((t.take (pyIdx t.length b)).drop (pyIdx t.length a)).get ⟨q, hq⟩ = _
  simp only [List.get_eq_getElem, List.getElem_drop, List.getElem_take]
  simp only [hA]

lemma mem_pySlice (t : List Char) (a b : Int) (p : Nat) (hp : p < t.length)
    (ha : 0 ≤ a) (h1 : a ≤ (p : Int)) (h2 : ((p : Nat) : Int) < b) :
    t.get ⟨p, hp⟩ ∈ pySlice t a b := by
  have hA : pyIdx t.length a = a.toNat := by
    unfold pyIdx
    rw [if_neg (by omega)]
    omega
  have hB : p < pyIdx t.length b := by
    unfold pyIdx
    rw [if_neg (by omega)]
    omega
  have hq : p - a.toNat < (pySlice t a b).length := by
    unfold pySlice
    simp only [List.length_drop, List.length_take]
    omega
  obtain ⟨hp', heq⟩ := pySlice_get_nonneg t a b ha (p - a.toNat) hq
  have hpq : a.toNat + (p - a.toNat) = p := by omega
  have : (pySlice t a b).get ⟨p - a.toNat, hq⟩ = t.get ⟨p, hp⟩ := by
    rw [heq]
    exact congrArg t.get (Fin.ext hpq)
  rw [← this]
  exact List.get_mem _ _ _

/-! ### Lemmas about `pyRfind` -/

lemma pyRfind_ge_neg_one (c : Char) (s : List Char) : -1 ≤ pyRfind c s := by
  induction s with
  | nil => simp [pyRfind]
  | cons x xs ih =>
    simp only [pyRfind]
    split_ifs <;> omega

lemma pyRfind_lt_length (c : Char) (s : List Char) :
    pyRfind c s < (s.length : Int) := by
  induction s with
  | nil => simp [pyRfind]
  | cons x xs ih =>
    simp only [pyRfind, List.length_cons]
    push_cast
    split_ifs <;> omega

lemma pyRfind_get (c : Char) (s : List Char) (h : 0 ≤ pyRfind c s) :
    ∃ hb : (pyRfind c s).toNat < s.length,
      s.get ⟨(pyRfind c s).toNat, hb⟩ = c := by
  induction s with
  | nil => simp [pyRfind] at h
  | cons x xs ih =>
    by_cases h1 : 0 ≤ pyRfind c xs
    · obtain ⟨hb, hget⟩ := ih h1
      have hv : pyRfind c (x :: xs) = pyRfind c xs + 1 := by
        simp only [pyRfind]
        rw [if_pos h1]
      have hlt : (pyRfind c (x :: xs)).toNat < (x :: xs).length := by
        simp only [List.length_cons]
        omega
      have hsucc : (pyRfind c (x :: xs)).toNat = (pyRfind c xs).toNat + 1 := by
        rw [hv]
        omega
      refine ⟨hlt, ?_⟩
      have h2 : (x :: xs).get ⟨(pyRfind c (x :: xs)).toNat, hlt⟩ =
          (x :: xs).get ⟨(pyRfind c xs).toNat + 1,
            by simp only [List.length_cons]; omega⟩ :=
        congrArg _ (Fin.ext hsucc)
      rw [h2]
      exact hget
    · by_cases h2 : x = c
      · have hv : pyRfind c (x :: xs) = 0 := by
          simp only [pyRfind]
          rw [if_neg h1, if_pos h2]
        have hz : (pyRfind c (x :: xs)).toNat = 0 := by rw [hv]; rfl
        refine ⟨by simp [hz], ?_⟩
        have h3 : (x :: xs).get ⟨(pyRfind c (x :: xs)).toNat, by simp [hz]⟩ =
            (x :: xs).get ⟨0, by simp⟩ :=
          congrArg _ (Fin.ext hz)
        rw [h3]
        exact h2
      · have hv : pyRfind c (x :: xs) = -1 := by
          simp only [pyRfind]
          rw [if_neg h1, if_neg h2]
        rw [hv] at h
        exact absurd h (by omega)

lemma pyRfind_after (c : Char) (s : List Char) (j : Nat) (hj : j < s.length)
    (h : pyRfind c s < (j : Int)) : s.get ⟨j, hj⟩ ≠ c := by
  induction s generalizing j with
  | nil => exact absurd hj (by simp)
  | cons x xs ih =>
    simp only [pyRfind] at h
    split_ifs at h with h1 h2
    · cases j with
      | zero => exact absurd h (by omega)
      | succ k =>
        have hk : k < xs.length := by
          simpa using Nat.lt_of_succ_lt_succ hj
        exact ih k hk (by push_cast at h ⊢; omega)
    · cases j with
      | zero => exact absurd h (by omega)
      | succ k =>
        have hk : k < xs.length := by
          simpa using Nat.lt_of_succ_lt_succ hj
        exact ih k hk (by omega)
    · cases j with
      | zero => simpa using h2
      | succ k =>
        have hk : k < xs.length := by
          simpa using Nat.lt_of_succ_lt_succ hj
        exact ih k hk (by omega)

/-! ### Generic lemmas about the chunk loop -/

lemma chunkLoop_exit (cs ov : Int) (t : List Char) (fuel : Nat) (start : Int)
    (acc : List (List Char)) (h : (t.length : Int) ≤ start) :
    chunkLoop cs ov t fuel start acc = some acc.reverse := by
  cases fuel <;> simp only [chunkLoop] <;> rw [if_neg (by omega)]

lemma chunkLoop_sub_mem (cs ov : Int) (t : List Char) :
    ∀ (fuel : Nat) (start : Int) (acc l : List (List Char)) (x : List Char),
      chunkLoop cs ov t fuel start acc = some l → x ∈ acc → x ∈ l := by
  intro fuel
  induction fuel with
  | zero =>
    intro start acc l x h hx
    simp only [chunkLoop] at h
    split at h
    · cases h
    · injection h with h
      exact h ▸ List.mem_reverse.mpr hx
  | succ fuel ih =>
    intro start acc l x h hx
    simp only [chunkLoop] at h
    split at h
    · refine ih _ _ _ _ h ?_
      split
      · exact hx
      · exact List.mem_cons_of_mem _ hx
    · injection h with h
      exact h ▸ List.mem_reverse.mpr hx

/-! ### Window coverage and size of one chunk step -/

lemma strip_window_covers (cs : Int) (t : List Char) (start : Int)
    (h0 : 0 ≤ start) :
    ∀ p (hp : p < t.length), start ≤ (p : Int) → ((p : Nat) : Int) < start + cs →
      isPySpace (t.get ⟨p, hp⟩) = false →
      t.get ⟨p, hp⟩ ∈ pyStrip (pySlice t start (start + cs)) := by
  intro p hp h1 h2 hws
  exact mem_pyStrip (mem_pySlice t start (start + cs) p hp h0 h1 h2) hws

lemma strip_window_trunc_covers (cs b : Int) (t : List Char) (start : Int)
    (h0 : 0 ≤ start)
    (hble : b ≤ ((pySlice t start (start + cs)).length : Int)) :
    ∀ p (hp : p < t.length), start ≤ (p : Int) → ((p : Nat) : Int) < start + b →
      isPySpace (t.get ⟨p, hp⟩) = false →
      t.get ⟨p, hp⟩ ∈ pyStrip (pySlice (pySlice t start (start + cs)) 0 b) := by
  intro p hp h1 h2 hws
  have hq : p - start.toNat < (pySlice t start (start + cs)).length := by omega
  obtain ⟨hp', heq⟩ := pySlice_get_nonneg t start (start + cs) h0 (p - start.toNat) hq
  have hpq : start.toNat + (p - start.toNat) = p := by omega
  have hwget : (pySlice t start (start + cs)).get ⟨p - start.toNat, hq⟩ =
      t.get ⟨p, hp⟩ := by
    rw [heq]
    exact congrArg t.get (Fin.ext hpq)
  rw [← hwget]
  refine mem_pyStrip ?_ (by rw [hwget]; exact hws)
  exact mem_pySlice _ 0 b (p - start.toNat) hq (le_refl 0) (by omega) (by omega)

lemma chunkStep_covers (cs : Int) (t : List Char) (start : Int)
    (hcs : 0 < cs) (h0 : 0 ≤ start) :
    start + 1 ≤ (chunkStep cs t start).2 ∧
    (chunkStep cs t start).2 ≤ start + cs ∧
    ((start + cs < (t.length : Int) ∧
        2 * ((chunkStep cs t start).2 - start) > cs) ∨
      (chunkStep cs t start).2 = start + cs) ∧
    ∀ p (hp : p < t.length), start ≤ (p : Int) →
      ((p : Nat) : Int) < (chunkStep cs t start).2 →
      isPySpace (t.get ⟨p, hp⟩) = false →
      t.get ⟨p, hp⟩ ∈ (chunkStep cs t start).1 := by
  have hlen := pySlice_length_le_window t start cs (le_of_lt hcs)
  have hr1 := pyRfind_lt_length '.' (pySlice t start (start + cs))
  have hr2 := pyRfind_lt_length '\n' (pySlice t start (start + cs))
  have hr3 := pyRfind_lt_length ' ' (pySlice t start (start + cs))
  simp only [chunkStep]
  split
  · split
    · rename_i hedge htr
      dsimp only
      refine ⟨by omega, by omega, Or.inl ⟨hedge, by omega⟩, ?_⟩
      intro p hp h1 h2 hws
      exact strip_window_trunc_covers cs _ t start h0 (by omega) p hp h1 (by omega) hws
    · rename_i hedge htr
      dsimp only
      exact ⟨by omega, by omega, Or.inr rfl, strip_window_covers cs t start h0⟩
  · rename_i hedge
    dsimp only
    exact ⟨by omega, by omega, Or.inr rfl, strip_window_covers cs t start h0⟩

lemma chunkStep_fst_length (cs : Int) (t : List Char) (start : Int)
    (hcs : 0 < cs) : ((chunkStep cs t start).1.length : Int) ≤ cs := by
  have hlen := pySlice_length_le_window t start cs (le_of_lt hcs)
  have h1 := pyStrip_length_le (pySlice t start (start + cs))
  simp only [chunkStep]
  split
  · split
    · dsimp only
      have h2 := pyStrip_length_le (pySlice (pySlice t start (start + cs)) 0
        (max (max (pyRfind '.' (pySlice t start (start + cs)))
          (pyRfind '\n' (pySlice t start (start + cs))))
          (pyRfind ' ' (pySlice t start (start + cs))) + 1))
      have h3 := pySlice_length_le_self (pySlice t start (start + cs)) 0
        (max (max (pyRfind '.' (pySlice t start (start + cs)))
          (pyRfind '\n' (pySlice t start (start + cs))))
          (pyRfind ' ' (pySlice t start (start + cs))) + 1)
      omega
    · dsimp only
      omega
  · dsimp only
    omega

/-! ### C9: emitted chunks never exceed the configured maximum size -/

lemma chunkLoop_length_le (cs ov : Int) (t : List Char) (hcs : 0 < cs) :
    ∀ (fuel : Nat) (start : Int) (acc l : List (List Char)),
      (∀ c ∈ acc, (c.length : Int) ≤ cs) →
      chunkLoop cs ov t fuel start acc = some l →
      ∀ c ∈ l, (c.length : Int) ≤ cs := by
  intro fuel
  induction fuel with
  | zero =>
    intro start acc l hacc h
    simp only [chunkLoop] at h
    split at h
    · cases h
    · injection h with h
      intro c hc
      exact hacc c (List.mem_reverse.mp (h ▸ hc))
  | succ fuel ih =>
    intro start acc l hacc h
    simp only [chunkLoop] at h
    split at h
    · refine ih _ _ _ ?_ h
      intro c hc
      split at hc
      · exact hacc c hc
      · rcases List.mem_cons.mp hc with rfl | hc'
        · exact chunkStep_fst_length cs t start hcs
        · exact hacc c hc'
    · injection h with h
      intro c hc
      exact hacc c (List.mem_reverse.mp (h ▸ hc))

/-- C9: for every configuration with `max_size > 0`, every chunk emitted by
`chunk_text` has length at most `max_size`, unconditionally — including
windows in which no boundary character occurs at all (each emitted chunk is
a stripped sub-window of the `max_size`-wide candidate window). -/
theorem c9_chunk_length_le (cs ov : Int) (t : List Char) (l : List (List Char))
    (hcs : 0 < cs) (h : chunk_text cs ov t = some l) :
    ∀ c ∈ l, (c.length : Int) ≤ cs :=
  chunkLoop_length_le cs ov t hcs _ 0 [] l (by simp) h

theorem c9_chunk_length_le_witness :
    (0 : Int) < 5 ∧
    ∀ c ∈ ["hello".data, "lo wo".data, "world".data, "ld".data],
      (c.length : Int) ≤ 5 :=
  ⟨by decide, c9_chunk_length_le 5 2 "hello world".data _ (by decide) (by decide)⟩

/-! ### C1: termination of the chunk scan -/

/-- An input on which `chunk_text` with `chunk_size = 10`, `overlap = 9`
cycles forever: the first window truncates at the period (end 7), the
cursor then moves to `7 - 9 = -2`, and the negative cursors produce empty
Python slices until the cursor is back at 0. -/
def badText : List Char := "aaaaaa.bbbbbbbbbbbbbbbbbbbb".data

lemma c1_unfold_zero (fuel : Nat) (acc : List (List Char)) :
    chunkLoop 10 9 badText (fuel + 1) 0 acc =
      chunkLoop 10 9 badText fuel (-2) ("aaaaaa.".data :: acc) := rfl

lemma c1_unfold_neg_two (fuel : Nat) (acc : List (List Char)) :
    chunkLoop 10 9 badText (fuel + 1) (-2) acc =
      chunkLoop 10 9 badText fuel (-1) acc := rfl

lemma c1_unfold_neg_one (fuel : Nat) (acc : List (List Char)) :
    chunkLoop 10 9 badText (fuel + 1) (-1) acc =
      chunkLoop 10 9 badText fuel 0 acc := rfl

lemma c1_cycle : ∀ (fuel : Nat) (acc : List (List Char)),
    chunkLoop 10 9 badText fuel 0 acc = none ∧
    chunkLoop 10 9 badText fuel (-2) acc = none ∧
    chunkLoop 10 9 badText fuel (-1) acc = none := by
  intro fuel
  induction fuel with
  | zero => exact fun acc => ⟨rfl, rfl, rfl⟩
  | succ fuel ih =>
    intro acc
    exact ⟨(c1_unfold_zero fuel acc).trans (ih _).2.1,
           (c1_unfold_neg_two fuel acc).trans (ih _).2.2,
           (c1_unfold_neg_one fuel acc).trans (ih _).1⟩

/-- C1 fails as stated: the configuration `max_size = 10`, `overlap = 9`
satisfies `0 ≤ overlap < max_size`, yet on `badText` the scan's cursor
cycles `0 → -2 → -1 → 0` forever and `chunk_text` never terminates. -/
theorem c1_counterexample :
    ((0 : Int) ≤ 9 ∧ (9 : Int) < 10) ∧ chunkDiverges 10 9 badText :=
  ⟨by decide, fun fuel => (c1_cycle fuel []).1⟩

lemma chunkLoop_total (cs ov : Int) (t : List Char) (hcs : 0 < cs)
    (hov0 : 0 ≤ ov) (hov2 : 2 * ov ≤ cs) :
    ∀ (fuel : Nat) (start : Int) (acc : List (List Char)), 0 ≤ start →
      (t.length : Int) - start ≤ (fuel : Int) →
      (chunkLoop cs ov t fuel start acc).isSome := by
  intro fuel
  induction fuel with
  | zero =>
    intro start acc h0 hf
    simp only [chunkLoop]
    rw [if_neg (by omega)]
    rfl
  | succ fuel ih =>
    intro start acc h0 hf
    simp only [chunkLoop]
    split
    · rename_i hlt
      obtain ⟨hprog, hub, hdisj, _⟩ := chunkStep_covers cs t start hcs h0
      apply ih
      · rcases hdisj with h | h <;> omega
      · rcases hdisj with h | h <;> (push_cast at hf ⊢; omega)
    · rfl

/-- C1 amended: the scan of `chunk_text` terminates for every input text
whenever `0 ≤ overlap` and `2 * overlap ≤ max_size` (overlap at most half
the window, so that even a window truncated just past its midpoint makes
strictly positive cursor progress); `overlap < max_size` alone does not
guarantee termination. -/
theorem c1_amended_termination (cs ov : Int) (t : List Char) (hcs : 0 < cs)
    (hov0 : 0 ≤ ov) (hov2 : 2 * ov ≤ cs) :
    (chunk_text cs ov t).isSome :=
  chunkLoop_total cs ov t hcs hov0 hov2 _ 0 [] (le_refl 0) (by push_cast; omega)

theorem c1_amended_termination_witness :
    ((0 : Int) < 10 ∧ (0 : Int) ≤ 4 ∧ 2 * 4 ≤ (10 : Int)) ∧
    (chunk_text 10 4 "hello world. more text here".data).isSome :=
  ⟨by decide,
   c1_amended_termination 10 4 "hello world. more text here".data
     (by decide) (by decide) (by decide)⟩

/-! ### C4: texts shorter than the window -/

/-- C4 fails as stated: `"abcdef"` has length `6 < max_size = 10` and a
non-empty trimmed form, yet with the spec-valid configuration
`overlap = 5 < max_size` the scan emits two chunks (`"abcdef"` and `"f"`),
because the cursor restarts at `max_size - overlap = 5 < 6`. -/
theorem c4_counterexample :
    ((0 : Int) ≤ 5 ∧ (5 : Int) < 10) ∧
    (0 < "abcdef".data.length ∧ ("abcdef".data.length : Int) < 10) ∧
    pyStrip "abcdef".data = "abcdef".data ∧
    chunk_text 10 5 "abcdef".data = some ["abcdef".data, "f".data] ∧
    chunk_text 10 5 "abcdef".data ≠ some [pyStrip "abcdef".data] := by
  decide

/-- C4 amended: for every configuration with `max_size > 0`, `overlap ≥ 0`
and every text with `0 < length ≤ max_size - overlap` whose trimmed form is
non-empty, `chunk_text` returns exactly one chunk, the whitespace-trimmed
input; and on the empty text it returns the empty sequence. (Texts merely
shorter than `max_size` but longer than `max_size - overlap` can yield more
than one chunk, as the counterexample shows.) -/
theorem c4_amended_single_chunk (cs ov : Int) (t : List Char)
    (hcs : 0 < cs) (hov0 : 0 ≤ ov)
    (hlen1 : 0 < t.length) (hlen2 : (t.length : Int) ≤ cs - ov)
    (hne : pyStrip t ≠ []) :
    chunk_text cs ov t = some [pyStrip t] ∧
    chunk_text cs ov ([] : List Char) = some [] := by
  constructor
  · unfold chunk_text
    obtain ⟨n, hn⟩ : ∃ n, t.length = n + 1 := ⟨t.length - 1, by omega⟩
    rw [hn]
    have hstep : chunkStep cs t 0 = (pyStrip t, cs) := by
      simp only [chunkStep]
      rw [if_neg (by omega), zero_add, pySlice_all t cs (by omega)]
    have hemp : (pyStrip t).isEmpty = false := by
      cases hpt : pyStrip t
      · exact absurd hpt hne
      · rfl
    have h1 : chunkLoop cs ov t (n + 1 + 1) 0 [] =
        chunkLoop cs ov t (n + 1) (cs - ov) [pyStrip t] := by
      simp only [chunkLoop]
      rw [if_pos (by omega), hstep]
      dsimp only
      rw [hemp]
      rfl
    rw [h1, chunkLoop_exit cs ov t (n + 1) (cs - ov) [pyStrip t] (by omega)]
    rfl
  · rfl

theorem c4_amended_single_chunk_witness :
    ((0 : Int) < 10 ∧ (0 : Int) ≤ 2 ∧ 0 < "hi there".data.length ∧
      ("hi there".data.length : Int) ≤ 10 - 2 ∧ pyStrip "hi there".data ≠ []) ∧
    chunk_text 10 2 "hi there".data = some [pyStrip "hi there".data] ∧
    chunk_text 10 2 ([] : List Char) = some [] :=
  ⟨by decide,
   c4_amended_single_chunk 10 2 "hi there".data (by decide) (by decide)
     (by decide) (by decide) (by decide)⟩

/-! ### C7: no non-whitespace character is dropped -/

lemma chunkStep_empty_window (cs : Int) (t : List Char) (start : Int)
    (hcs : 0 < cs) (h1 : -cs < start) (h2 : start < 0)
    (h3 : cs ≤ (t.length : Int)) :
    chunkStep cs t start = ([], start + cs) := by
  have hw := pySlice_neg_empty t start cs h1 h2 h3
  simp only [chunkStep]
  rw [hw]
  have hbp : max (max (pyRfind '.' ([] : List Char))
      (pyRfind '\n' ([] : List Char))) (pyRfind ' ' ([] : List Char)) = -1 := by
    decide
  rw [hbp, if_neg (by omega : ¬ 2 * (-1 : Int) > cs)]
  split <;> rfl

lemma chunkLoop_covers (cs ov : Int) (t : List Char) (hcs : 0 < cs)
    (hov0 : 0 ≤ ov) (hov : ov < cs) :
    ∀ (fuel : Nat),
      (∀ (start : Int) (acc l : List (List Char)), 0 ≤ start →
        chunkLoop cs ov t fuel start acc = some l →
        ∀ p (hp : p < t.length), start ≤ (p : Int) →
          isPySpace (t.get ⟨p, hp⟩) = false → t.get ⟨p, hp⟩ ∈ l.flatten) ∧
      (∀ (start : Int) (acc l : List (List Char)), -cs < start → start < 0 →
        cs ≤ (t.length : Int) →
        chunkLoop cs ov t fuel start acc = some l →
        ∀ p (hp : p < t.length), cs - ov ≤ (p : Int) →
          isPySpace (t.get ⟨p, hp⟩) = false → t.get ⟨p, hp⟩ ∈ l.flatten) := by
  intro fuel
  induction fuel with
  | zero =>
    constructor
    · intro start acc l h0 h p hp hsp hws
      simp only [chunkLoop] at h
      split at h
      · cases h
      · rename_i hge
        exact absurd hsp (by omega)
    · intro start acc l hm h0 hcl h p hp hsp hws
      simp only [chunkLoop] at h
      split at h
      · cases h
      · rename_i hge
        exact absurd h0 (by omega)
  | succ fuel ih =>
    constructor
    · intro start acc l h0 h p hp hsp hws
      simp only [chunkLoop] at h
      split at h
      · rename_i hlt
        obtain ⟨hprog, hub, hdisj, hcov⟩ := chunkStep_covers cs t start hcs h0
        by_cases hpe : ((p : Nat) : Int) < (chunkStep cs t start).2
        · have hc := hcov p hp hsp hpe hws
          have hne : (chunkStep cs t start).1 ≠ [] := List.ne_nil_of_mem hc
          have hmem : (chunkStep cs t start).1 ∈ l := by
            refine chunkLoop_sub_mem cs ov t fuel _ _ l _ h ?_
            split
            · rename_i hemp
              exact absurd (List.isEmpty_iff.mp hemp) hne
            · exact List.mem_cons_self _ _
          exact List.mem_flatten.mpr ⟨_, hmem, hc⟩
        · by_cases hs' : 0 ≤ (chunkStep cs t start).2 - ov
          · exact (ih).1 ((chunkStep cs t start).2 - ov) _ l hs' h p hp
              (by omega) hws
          · rcases hdisj with ⟨hedge, htr⟩ | hpl
            · refine (ih).2 ((chunkStep cs t start).2 - ov) _ l (by omega)
                (by omega) (by omega) h p hp (by omega) hws
            · exact absurd hs' (by omega)
      · rename_i hge
        exact absurd hsp (by omega)
    · intro start acc l hm h0 hcl h p hp hsp hws
      simp only [chunkLoop] at h
      split at h
      · rename_i hlt
        rw [chunkStep_empty_window cs t start hcs hm h0 hcl] at h
        dsimp only at h
        rw [if_pos (show ([] : List Char).isEmpty = true from rfl)] at h
        by_cases hs' : 0 ≤ start + cs - ov
        · exact (ih).1 (start + cs - ov) _ l hs' h p hp (by omega) hws
        · exact (ih).2 (start + cs - ov) _ l (by omega) (by omega) hcl h p hp
            hsp hws
      · rename_i hge
        exact absurd h0 (by omega)

/-- C7: for every text and every spec-valid configuration
(`max_size > 0`, `0 ≤ overlap < max_size`), whenever the scan terminates
with a chunk list, every non-whitespace character of the text appears in
the concatenation of the returned chunks — the only characters dropped are
whitespace trimmed at chunk edges. -/
theorem c7_no_char_dropped (cs ov : Int) (t : List Char) (l : List (List Char))
    (hcs : 0 < cs) (hov0 : 0 ≤ ov) (hov : ov < cs)
    (hl : chunk_text cs ov t = some l) :
    ∀ c ∈ t, isPySpace c = false → c ∈ l.flatten := by
  intro c hc hws
  obtain ⟨⟨p, hp⟩, hg⟩ := List.mem_iff_get.mp hc
  subst hg
  exact (chunkLoop_covers cs ov t hcs hov0 hov (t.length + 1)).1 0 [] l
    (le_refl 0) hl p hp (by omega) hws

theorem c7_no_char_dropped_witness :
    ((0 : Int) < 6 ∧ (0 : Int) ≤ 2 ∧ (2 : Int) < 6) ∧
    'd' ∈ "ab cd.".data ∧ isPySpace 'd' = false ∧
    'd' ∈ (["ab cd.".data, "d.".data] : List (List Char)).flatten :=
  ⟨by decide, by decide, by decide,
   c7_no_char_dropped 6 2 "ab cd.".data ["ab cd.".data, "d.".data]
     (by decide) (by decide) (by decide) (by decide) 'd' (by decide) (by decide)⟩

/-! ### C3: the break point of a window -/

lemma isBoundaryChar_eq_false {c : Char} (h1 : c ≠ '.') (h2 : c ≠ '\n')
    (h3 : c ≠ ' ') : isBoundaryChar c = false := by
  simp [isBoundaryChar, h1, h2, h3]

/-- C3 fails in its priority reading: on the window `"ab. cde fg"` of
`"ab. cde fgXYZWVU"` (with `max_size = 10`, right edge strictly before the
text end), a priority search finds the rightmost period at position
`2 ≤ max_size * 0.5` and would keep the full window, but the code emits
`"ab. cde"`: it takes the maximum over the three boundary kinds — here the
space at position 7 — and truncates there. -/
theorem c3_counterexample :
    (0 : Int) + 10 < ("ab. cde fgXYZWVU".data.length : Int) ∧
    pyStrip (prioTruncWindow 10 (pySlice "ab. cde fgXYZWVU".data 0 (0 + 10))) =
      "ab. cde fg".data ∧
    chunk_text 10 0 "ab. cde fgXYZWVU".data =
      some ["ab. cde".data, "fgXYZWVU".data] ∧
    (chunkStep 10 "ab. cde fgXYZWVU".data 0).1 = "ab. cde".data ∧
    "ab. cde".data ≠ "ab. cde fg".data := by
  decide

/-- C3 amended: for every window whose right edge is strictly before the
end of the text, the break point used by the code is the rightmost
occurrence of any of period, newline or space (the maximum of the three
last-occurrence indices, not a priority search): no boundary character
occurs to the right of it, it is itself a boundary character when it
exists, and the window is truncated just after it if and only if its
position is strictly greater than `max_size * 0.5` (otherwise the full
window is kept). -/
theorem c3_amended_breakpoint (cs start : Int) (t : List Char)
    (hcs : 0 < cs) (h0 : 0 ≤ start)
    (hedge : start + cs < (t.length : Int)) :
    (∀ j (hj : j < (pySlice t start (start + cs)).length),
        bpOf cs t start < (j : Int) →
        isBoundaryChar ((pySlice t start (start + cs)).get ⟨j, hj⟩) = false) ∧
    (0 ≤ bpOf cs t start →
      ∃ hb : (bpOf cs t start).toNat < (pySlice t start (start + cs)).length,
        isBoundaryChar ((pySlice t start (start + cs)).get
          ⟨(bpOf cs t start).toNat, hb⟩) = true) ∧
    chunkStep cs t start =
      (if 2 * bpOf cs t start > cs then
        (pyStrip (pySlice (pySlice t start (start + cs)) 0 (bpOf cs t start + 1)),
         start + bpOf cs t start + 1)
       else (pyStrip (pySlice t start (start + cs)), start + cs)) := by
  refine ⟨?_, ?_, ?_⟩
  · intro j hj hgt
    unfold bpOf at hgt
    refine isBoundaryChar_eq_false ?_ ?_ ?_
    · exact pyRfind_after '.' _ j hj (by omega)
    · exact pyRfind_after '\n' _ j hj (by omega)
    · exact pyRfind_after ' ' _ j hj (by omega)
  · intro hbp
    rcases max_choice (max (pyRfind '.' (pySlice t start (start + cs)))
        (pyRfind '\n' (pySlice t start (start + cs))))
        (pyRfind ' ' (pySlice t start (start + cs))) with hc | hc
    · rcases max_choice (pyRfind '.' (pySlice t start (start + cs)))
          (pyRfind '\n' (pySlice t start (start + cs))) with hc2 | hc2
      · have hv : bpOf cs t start = pyRfind '.' (pySlice t start (start + cs)) := by
          unfold bpOf
          rw [hc, hc2]
        rw [hv] at hbp ⊢
        obtain ⟨hb, hg⟩ := pyRfind_get '.' _ hbp
        exact ⟨hb, by rw [hg]; rfl⟩
      · have hv : bpOf cs t start = pyRfind '\n' (pySlice t start (start + cs)) := by
          unfold bpOf
          rw [hc, hc2]
        rw [hv] at hbp ⊢
        obtain ⟨hb, hg⟩ := pyRfind_get '\n' _ hbp
        exact ⟨hb, by rw [hg]; rfl⟩
    · have hv : bpOf cs t start = pyRfind ' ' (pySlice t start (start + cs)) := by
        unfold bpOf
        rw [hc]
      rw [hv] at hbp ⊢
      obtain ⟨hb, hg⟩ := pyRfind_get ' ' _ hbp
      exact ⟨hb, by rw [hg]; rfl⟩
  · simp only [chunkStep, bpOf]
    rw [if_pos hedge]

theorem c3_amended_breakpoint_witness :
    chunkStep 10 "ab. cde fgXYZWVU".data 0 =
      (if 2 * bpOf 10 "ab. cde fgXYZWVU".data 0 > 10 then
        (pyStrip (pySlice (pySlice "ab. cde fgXYZWVU".data 0 (0 + 10)) 0
          (bpOf 10 "ab. cde fgXYZWVU".data 0 + 1)),
         0 + bpOf 10 "ab. cde fgXYZWVU".data 0 + 1)
       else (pyStrip (pySlice "ab. cde fgXYZWVU".data 0 (0 + 10)), 0 + 10)) :=
  (c3_amended_breakpoint 10 0 "ab. cde fgXYZWVU".data (by decide) (by decide)
    (by decide)).2.2

/-! ### C2: embedding failure during add -/

lemma buildRows_some_length (embed : List Char → Option (List Int)) (base : Nat) :
    ∀ (docs : List InDoc) (i : Nat), (∀ d ∈ docs, (embed d.content).isSome) →
      ∃ rows, buildRows embed base i docs = some rows ∧
        rows.length = docs.length := by
  intro docs
  induction docs with
  | nil => exact fun i _ => ⟨[], rfl, rfl⟩
  | cons d ds ih =>
    intro i hall
    obtain ⟨emb, hemb⟩ :=
      Option.isSome_iff_exists.mp (hall d (List.mem_cons_self _ _))
    obtain ⟨rows, hrows, hlen⟩ :=
      ih (i + 1) (fun x hx => hall x (List.mem_cons_of_mem _ hx))
    refine ⟨{ eid := "doc_".data ++ Nat.toDigits 10 (base + i), embedding := emb,
              content := d.content, metadata := d.metadata } :: rows, ?_, by
      simp [hlen]⟩
    simp only [buildRows, hemb, hrows]

lemma buildRows_none (embed : List Char → Option (List Int)) (base : Nat) :
    ∀ (docs : List InDoc) (i : Nat), (∃ d ∈ docs, embed d.content = none) →
      buildRows embed base i docs = none := by
  intro docs
  induction docs with
  | nil =>
    rintro i ⟨d, hd, _⟩
    cases hd
  | cons d ds ih =>
    rintro i ⟨x, hx, hnone⟩
    rcases List.mem_cons.mp hx with rfl | hx'
    · simp only [buildRows, hnone]
    · cases hemb : embed d.content with
      | none => simp only [buildRows, hemb]
      | some emb =>
        simp only [buildRows, hemb, ih (i + 1) ⟨x, hx', hnone⟩]

/-- C2 fails as stated: `add_documents` stages the whole batch — it
computes all embeddings into local lists and calls `collection.add` only
after the loop — so when embedding fails at position 1 of a 2-document
batch, the call aborts with an error and nothing at all is inserted: the
count after the failed add equals (does not exceed) the count before. -/
theorem c2_counterexample :
    failEmbed okDoc.content = some [0, 1] ∧
    failEmbed badDoc.content = none ∧
    add_documents failEmbed [] [okDoc, badDoc] = Except.error () ∧
    countVS (colAfterAdd failEmbed [] [okDoc, badDoc]) = 0 ∧
    ¬ countVS [] < countVS (colAfterAdd failEmbed [] [okDoc, badDoc]) := by
  refine ⟨rfl, rfl, rfl, rfl, ?_⟩
  decide

/-- C2 amended: if embedding fails for any entry of a non-empty batch, the
`add` call aborts with an error and no entry of that batch is inserted —
the collection (hence the count) is exactly what it was before the call:
the implementation is transactional with respect to embedding failures
because `collection.add` runs only after every embedding succeeded. -/
theorem c2_amended_no_partial_insert (embed : List Char → Option (List Int))
    (col : List VSEntry) (docs : List InDoc)
    (h : ∃ d ∈ docs, embed d.content = none) :
    add_documents embed col docs = Except.error () ∧
    colAfterAdd embed col docs = col ∧
    countVS (colAfterAdd embed col docs) = countVS col := by
  have hne : docs ≠ [] := by
    rintro rfl
    obtain ⟨d, hd, _⟩ := h
    cases hd
  have herr : add_documents embed col docs = Except.error () := by
    unfold add_documents
    rw [if_neg (by simpa using hne)]
    rw [buildRows_none embed col.length docs 0 h]
  have hcol : colAfterAdd embed col docs = col := by
    unfold colAfterAdd
    rw [herr]
  exact ⟨herr, hcol, by rw [hcol]⟩

theorem c2_amended_no_partial_insert_witness :
    (∃ d ∈ [okDoc, badDoc], failEmbed d.content = none) ∧
    (add_documents failEmbed [demoEntry] [okDoc, badDoc] = Except.error () ∧
      colAfterAdd failEmbed [demoEntry] [okDoc, badDoc] = [demoEntry] ∧
      countVS (colAfterAdd failEmbed [demoEntry] [okDoc, badDoc]) =
        countVS [demoEntry]) :=
  ⟨by decide,
   c2_amended_no_partial_insert failEmbed [demoEntry] [okDoc, badDoc] (by decide)⟩

/-! ### C5: search result size -/

/-- C5: for every index state and `top_k ≥ 1`, a successful
`search(query, top_k)` returns exactly `min(top_k, count())` content
strings (in particular at most that many); on an empty index it returns
the empty sequence without error. -/
theorem c5_search_bounded (embed : List Char → Option (List Int))
    (col : List VSEntry) (q : List Char) (k : Nat) (hk : 1 ≤ k) :
    (countVS col = 0 → searchVS embed col q k = Except.ok []) ∧
    ∀ l, searchVS embed col q k = Except.ok l →
      l.length = min k (countVS col) := by
  constructor
  · intro h0
    unfold countVS at h0
    unfold searchVS
    rw [if_pos h0]
  · intro l hl
    unfold searchVS at hl
    by_cases h0 : col.length = 0
    · rw [if_pos h0] at hl
      injection hl with hl
      subst hl
      simp [countVS, h0]
    · rw [if_neg h0] at hl
      cases hemb : embed q with
      | none =>
        simp only [hemb] at hl
        exact Except.noConfusion hl
      | some qe =>
        simp only [hemb] at hl
        injection hl with hl
        subst hl
        unfold countVS
        simp only [List.length_map, List.length_take,
          List.length_insertionSort]
        omega

theorem c5_search_bounded_witness :
    1 ≤ 5 ∧
    ((countVS [demoEntry, demoEntry2] = 0 →
        searchVS demoEmbed [demoEntry, demoEntry2] "query".data 5 =
          Except.ok []) ∧
      ∀ l, searchVS demoEmbed [demoEntry, demoEntry2] "query".data 5 =
          Except.ok l →
        l.length = min 5 (countVS [demoEntry, demoEntry2])) :=
  ⟨by decide,
   c5_search_bounded demoEmbed [demoEntry, demoEntry2] "query".data 5 (by decide)⟩

/-! ### C8: count tracks successful inserts -/

/-- C8: adding a batch of N entries whose embeddings all succeed to an
index holding C entries leaves `count()` equal to `C + N`, and immediately
after `clear()` the count is 0. -/
theorem c8_count_tracks_inserts (embed : List Char → Option (List Int))
    (col : List VSEntry) (docs : List InDoc)
    (h : ∀ d ∈ docs, (embed d.content).isSome) :
    countVS (colAfterAdd embed col docs) = countVS col + docs.length ∧
    countVS clearVS = 0 := by
  refine ⟨?_, rfl⟩
  by_cases hd : docs.isEmpty
  · have hnil : docs = [] := List.isEmpty_iff.mp hd
    subst hnil
    unfold colAfterAdd add_documents
    simp [countVS]
  · obtain ⟨rows, hrows, hlen⟩ := buildRows_some_length embed col.length docs 0 h
    unfold colAfterAdd add_documents
    rw [if_neg hd]
    simp only [hrows]
    simp [countVS, hlen]

theorem c8_count_tracks_inserts_witness :
    (∀ d ∈ [demoDocA, demoDocB], (demoEmbed d.content).isSome) ∧
    (countVS (colAfterAdd demoEmbed [demoEntry] [demoDocA, demoDocB]) =
        countVS [demoEntry] + 2 ∧
      countVS clearVS = 0) :=
  ⟨by decide,
   c8_count_tracks_inserts demoEmbed [demoEntry] [demoDocA, demoDocB] (by decide)⟩

/-! ### C6: chunk metadata invariants -/

/-- C6: every chunk document produced from one source file carries
`total_chunks` equal to the number of chunks of that file, and the
`chunk_index` values are exactly the contiguous sequence
`0 .. total_chunks - 1`. -/
theorem c6_chunk_metadata (cs ov : Int) (f : SrcFile) (ds : List InDoc)
    (h : processFile cs ov f = some ds) :
    (∀ d ∈ ds, d.metadata.total_chunks = ds.length) ∧
    ds.map (fun d => d.metadata.chunk_index) = List.range ds.length := by
  unfold processFile at h
  split at h
  · injection h with h
    subst h
    exact ⟨by simp, by simp⟩
  · split at h
    · injection h with h
      subst h
      exact ⟨by simp, by simp⟩
    · cases hc : chunk_text cs ov f.content with
      | none =>
        rw [hc] at h
        cases h
      | some chunks =>
        simp only [hc] at h
        injection h with h
        subst h
        have hlen : (chunks.enum.map (fun ic =>
            ({ content := ic.2,
               metadata := { source := f.name, chunk_index := ic.1,
                             total_chunks := chunks.length,
                             file_path := f.path } } : InDoc))).length =
            chunks.length := by
          simp [List.enum_length]
        constructor
        · intro d hd
          obtain ⟨ic, hic, rfl⟩ := List.mem_map.mp hd
          exact hlen.symm
        · rw [hlen, List.map_map]
          have : ((fun d : InDoc => d.metadata.chunk_index) ∘ (fun ic =>
              ({ content := ic.2,
                 metadata := { source := f.name, chunk_index := ic.1,
                               total_chunks := chunks.length,
                               file_path := f.path } } : InDoc))) =
              Prod.fst := by
            funext ic
            rfl
          rw [this, List.enum_map_fst]

theorem c6_chunk_metadata_witness :
    processFile 12 3 demoFileA =
      some [⟨"one two.".data, ⟨"a.txt".data, 0, 2, "docs/a.txt".data⟩⟩,
            ⟨"o. three".data, ⟨"a.txt".data, 1, 2, "docs/a.txt".data⟩⟩] ∧
    ((∀ d ∈ [(⟨"one two.".data, ⟨"a.txt".data, 0, 2, "docs/a.txt".data⟩⟩ : InDoc),
             ⟨"o. three".data, ⟨"a.txt".data, 1, 2, "docs/a.txt".data⟩⟩],
        d.metadata.total_chunks = 2) ∧
      [(⟨"one two.".data, ⟨"a.txt".data, 0, 2, "docs/a.txt".data⟩⟩ : InDoc),
       ⟨"o. three".data, ⟨"a.txt".data, 1, 2, "docs/a.txt".data⟩⟩].map
          (fun d => d.metadata.chunk_index) = List.range 2) :=
  ⟨by decide,
   c6_chunk_metadata 12 3 demoFileA
     [⟨"one two.".data, ⟨"a.txt".data, 0, 2, "docs/a.txt".data⟩⟩,
      ⟨"o. three".data, ⟨"a.txt".data, 1, 2, "docs/a.txt".data⟩⟩] (by decide)⟩

/-! ### C10: empty or whitespace-only files are skipped -/

/-- C10: a file whose loaded content strips to nothing contributes zero
chunk documents, and removing it from a batch does not change the result
of processing the remaining files: processing continues. -/
theorem c10_empty_file_skipped (cs ov : Int) (f : SrcFile)
    (hws : pyStrip f.content = []) :
    processFile cs ov f = some [] ∧
    ∀ before after, processDirectory cs ov (before ++ f :: after) =
      processDirectory cs ov (before ++ after) := by
  have h1 : processFile cs ov f = some [] := by
    unfold processFile
    split
    · rfl
    · rw [if_pos (by simp [hws])]
  refine ⟨h1, ?_⟩
  intro before after
  induction before with
  | nil =>
    simp only [List.nil_append]
    cases hpd : processDirectory cs ov after with
    | none => simp [processDirectory, h1, hpd]
    | some rest => simp [processDirectory, h1, hpd]
  | cons g gs ih =>
    simp only [List.cons_append]
    unfold processDirectory
    rw [ih]

theorem c10_empty_file_skipped_witness :
    pyStrip emptyFile.content = [] ∧
    processFile 12 3 emptyFile = some [] ∧
    processDirectory 12 3 [demoFileA, emptyFile, demoFileB] =
      processDirectory 12 3 [demoFileA, demoFileB] :=
  ⟨by decide, (c10_empty_file_skipped 12 3 emptyFile (by decide)).1,
   (c10_empty_file_skipped 12 3 emptyFile (by decide)).2 [demoFileA] [demoFileB]⟩

end ModernEURag
